import Mathlib

/-!
Verification of the redpanda HTTP/1.1 client core (`src/v/http/client.h`)
and the partition-balancer value types
(`src/v/cluster/partition_balancer_types.h`).

Bytes are modelled as `Nat` (values 0..255 in practice; none of the
properties below depend on an upper bound).  Byte sequences are `List Nat`.
-/

namespace HttpClient

/-- ASCII carriage return. -/
def CR : Nat := 13

/-- ASCII line feed. -/
def LF : Nat := 10

/-- `request_stream::max_chunk_size = 32_KiB` from `src/v/http/client.h`. -/
def max_chunk_size : Nat := 32768

/-- ASCII code of the lowercase hexadecimal digit for `n < 16`. -/
def hexDigit (n : Nat) : Nat := if n < 10 then 48 + n else 87 + n

/-- Lowercase hexadecimal rendering of `n` (most significant digit first),
as ASCII codes.  This is the `<hex-length>` part of the chunk header. -/
def toHex (n : Nat) : List Nat :=
  if h : n < 16 then [hexDigit n] else toHex (n / 16) ++ [hexDigit (n % 16)]
termination_by n
decreasing_by exact Nat.div_lt_self (by omega) (by omega)

/-- Whether `c` is the ASCII code of a lowercase hexadecimal digit. -/
def isHexDigit (c : Nat) : Bool := (48 ≤ c && c ≤ 57) || (97 ≤ c && c ≤ 102)

/-- Numeric value of a hexadecimal digit's ASCII code. -/
def hexVal (c : Nat) : Nat := if c ≤ 57 then c - 48 else c - 87

/-- Wire rendering of one chunk: `<hex-length>\r\n<payload>\r\n`.
For the empty payload this is the terminator `0\r\n\r\n`. -/
def renderChunk (payload : List Nat) : List Nat :=
  toHex payload.length ++ [CR, LF] ++ payload ++ [CR, LF]

/-- Wire rendering of a list of chunk payloads. -/
def chunkWire (chunks : List (List Nat)) : List Nat :=
  (chunks.map renderChunk).flatten

/-- Modelled from the spec: the `chunked_encoder` of `http/chunk_encoding.h`
is declared but not defined under `src/`.  Per the spec (§4.1) it is a pure
state machine whose only state is the data accumulated for the current,
not-yet-flushed chunk, persisting across `encode` calls. -/
structure chunked_encoder where
  pending : List Nat

/-- Split a buffer into full chunks of exactly `max_chunk_size` bytes plus a
remainder shorter than `max_chunk_size`. -/
def splitChunks (buf : List Nat) : List (List Nat) × List Nat :=
  if h : max_chunk_size ≤ buf.length then
    let r := splitChunks (buf.drop max_chunk_size)
    (buf.take max_chunk_size :: r.1, r.2)
  else ([], buf)
termination_by buf.length
decreasing_by simp only [List.length_drop, max_chunk_size] at *; omega

/-- Modelled from the spec: one `encode` call of the Chunk Encoder.  Caller
bytes are appended to the pending data; every completed `max_chunk_size`
block is flushed as a chunk payload, the remainder stays pending.  Returns
the updated encoder and the list of emitted chunk payloads. -/
def chunked_encoder.encode (st : chunked_encoder) (input : List Nat) :
    chunked_encoder × List (List Nat) :=
  let r := splitChunks (st.pending ++ input)
  (⟨r.2⟩, r.1)

/-- Modelled from the spec: end-of-body.  Flushes the pending partial chunk
(if any) and emits the zero-length terminating chunk. -/
def chunked_encoder.encode_eof (st : chunked_encoder) : List (List Nat) :=
  (if st.pending.isEmpty then [] else [st.pending]) ++ [[]]

/-- Feed a list of body pieces through successive `encode` calls. -/
def encodeRun (st : chunked_encoder) : List (List Nat) → List (List Nat) × chunked_encoder
  | [] => ([], st)
  | p :: ps =>
    let r := st.encode p
    let rest := encodeRun r.1 ps
    (r.2 ++ rest.1, rest.2)

/-- All chunk payloads emitted for a body fed as `pieces` through successive
`encode` calls followed by one `encode_eof`. -/
def encodeAll (pieces : List (List Nat)) : List (List Nat) :=
  let r := encodeRun ⟨[]⟩ pieces
  r.1 ++ r.2.encode_eof

theorem max_chunk_size_pos : 0 < max_chunk_size := by decide

theorem splitChunks_flatten (buf : List Nat) :
    (splitChunks buf).1.flatten ++ (splitChunks buf).2 = buf := by
  induction buf using splitChunks.induct with
  | case1 buf h ih =>
    rw [splitChunks]
    simp only [dif_pos h]
    simp only [List.flatten_cons, List.append_assoc, ih]
    exact List.take_append_drop _ _
  | case2 buf h =>
    rw [splitChunks]
    simp [h]

theorem splitChunks_chunk_len (buf : List Nat) :
    ∀ c ∈ (splitChunks buf).1, c.length = max_chunk_size := by
  induction buf using splitChunks.induct with
  | case1 buf h ih =>
    rw [splitChunks]
    simp only [dif_pos h, List.mem_cons]
    rintro c (rfl | hc)
    · simpa using Nat.min_eq_left h
    · exact ih c hc
  | case2 buf h =>
    rw [splitChunks]
    simp [h]

theorem splitChunks_rest_len (buf : List Nat) :
    (splitChunks buf).2.length < max_chunk_size := by
  induction buf using splitChunks.induct with
  | case1 buf h ih =>
    rw [splitChunks]
    simpa only [dif_pos h] using ih
  | case2 buf h =>
    rw [splitChunks]
    simp only [dif_neg h]
    omega

theorem encodeRun_flatten (pieces : List (List Nat)) :
    ∀ st : chunked_encoder,
      (encodeRun st pieces).1.flatten ++ (encodeRun st pieces).2.pending
        = st.pending ++ pieces.flatten := by
  induction pieces with
  | nil => intro st; simp [encodeRun]
  | cons p ps ih =>
    intro st
    simp only [encodeRun, chunked_encoder.encode, List.flatten_cons,
      List.flatten_append, List.append_assoc]
    rw [ih ⟨(splitChunks (st.pending ++ p)).2⟩]
    show (splitChunks (st.pending ++ p)).1.flatten
        ++ ((splitChunks (st.pending ++ p)).2 ++ ps.flatten)
      = st.pending ++ (p ++ ps.flatten)
    rw [← List.append_assoc, splitChunks_flatten, List.append_assoc]

theorem encodeRun_chunk_len (pieces : List (List Nat)) :
    ∀ st : chunked_encoder, ∀ c ∈ (encodeRun st pieces).1,
      c.length = max_chunk_size := by
  induction pieces with
  | nil => intro st c hc; simp [encodeRun] at hc
  | cons p ps ih =>
    intro st c hc
    simp only [encodeRun, chunked_encoder.encode, List.mem_append] at hc
    rcases hc with hc | hc
    · exact splitChunks_chunk_len _ c hc
    · exact ih _ c hc

theorem encodeRun_pending_len (pieces : List (List Nat)) :
    ∀ st : chunked_encoder, st.pending.length < max_chunk_size →
      (encodeRun st pieces).2.pending.length < max_chunk_size := by
  induction pieces with
  | nil => intro st h; simpa [encodeRun]
  | cons p ps ih =>
    intro st h
    exact ih _ (splitChunks_rest_len _)

/-- The transfer mode of a response body: framed by a declared
`Content-Length`, or by chunked transfer-encoding. -/
inductive Mode
  | fixed (n : Nat)
  | chunked
deriving DecidableEq

/-- States of the incremental response parser
(`client::response_parser` is a `boost::beast::http::response_parser`;
its implementation is external, so the machine is modelled from the spec:
"awaiting header", "in body", "done", with chunk framing
`<hex-length>\r\n<bytes>\r\n` terminated by `0\r\n\r\n`).
`hdr m` means the last `m` consumed bytes match the first `m` bytes of the
header terminator `\r\n\r\n`. -/
inductive PState
  | hdr (m : Nat)
  | fixedBody (remaining : Nat)
  | chunkSize (acc : Nat) (seen : Bool)
  | chunkSizeLF (n : Nat)
  | chunkData (remaining : Nat)
  | chunkCR
  | chunkLF
  | lastCR
  | lastLF
  | done
  | failed
deriving DecidableEq

/-- Parser state entered right after the header terminator, by mode. -/
def bodyStart : Mode → PState
  | .fixed 0 => .done
  | .fixed (n + 1) => .fixedBody (n + 1)
  | .chunked => .chunkSize 0 false

/-- One byte of incremental parsing: next state plus the body bytes
extracted from this byte (empty for header and chunk-framing bytes). -/
def step (mode : Mode) : PState → Nat → PState × List Nat
  | .hdr m, c =>
    if m = 3 then
      if c = LF then (bodyStart mode, [])
      else if c = CR then (.hdr 1, []) else (.hdr 0, [])
    else if m = 1 then
      if c = LF then (.hdr 2, [])
      else if c = CR then (.hdr 1, []) else (.hdr 0, [])
    else if m = 2 then
      if c = CR then (.hdr 3, []) else (.hdr 0, [])
    else if c = CR then (.hdr 1, []) else (.hdr 0, [])
  | .fixedBody r, c => (if r ≤ 1 then .done else .fixedBody (r - 1), [c])
  | .chunkSize acc seen, c =>
    if isHexDigit c then (.chunkSize (16 * acc + hexVal c) true, [])
    else if c = CR ∧ seen = true then (.chunkSizeLF acc, [])
    else (.failed, [])
  | .chunkSizeLF n, c =>
    if c = LF then (if n = 0 then .lastCR else .chunkData n, [])
    else (.failed, [])
  | .chunkData r, c => (if r ≤ 1 then .chunkCR else .chunkData (r - 1), [c])
  | .chunkCR, c => (if c = CR then .chunkLF else .failed, [])
  | .chunkLF, c => (if c = LF then .chunkSize 0 false else .failed, [])
  | .lastCR, c => (if c = CR then .lastLF else .failed, [])
  | .lastLF, c => (if c = LF then .done else .failed, [])
  | .done, _ => (.done, [])
  | .failed, _ => (.failed, [])

/-- Feed a byte sequence through the parser, collecting the extracted
body bytes in order. -/
def feed (mode : Mode) : PState → List Nat → PState × List Nat
  | s, [] => (s, [])
  | s, c :: cs =>
    let r := step mode s c
    let rest := feed mode r.1 cs
    (rest.1, r.2 ++ rest.2)

/-- Feeding a concatenation equals feeding the parts in sequence: the
parser is insensitive to how the input is split into reads. -/
theorem feed_append (mode : Mode) (a : List Nat) :
    ∀ (s : PState) (b : List Nat),
      feed mode s (a ++ b)
        = ((feed mode (feed mode s a).1 b).1,
           (feed mode s a).2 ++ (feed mode (feed mode s a).1 b).2) := by
  induction a with
  | nil => intro s b; simp [feed]
  | cons c cs ih => intro s b; simp [feed, ih, List.append_assoc]

/-- Decoder for the chunked wire format, built from the parser machine
started in the chunked-body state: succeeds iff the input is a complete
well-formed chunk stream, returning the payload bytes. -/
def decodeChunked (wire : List Nat) : Option (List Nat) :=
  let r := feed .chunked (.chunkSize 0 false) wire
  if r.1 = .done then some r.2 else none

theorem isHexDigit_hexDigit (n : Nat) (h : n < 16) :
    isHexDigit (hexDigit n) = true := by
  simp only [hexDigit, isHexDigit]
  rcases Nat.lt_or_ge n 10 with h10 | h10
  · simp only [if_pos h10]
    simp only [Bool.or_eq_true, Bool.and_eq_true, decide_eq_true_eq]
    omega
  · simp only [if_neg (by omega : ¬ n < 10)]
    simp only [Bool.or_eq_true, Bool.and_eq_true, decide_eq_true_eq]
    omega

theorem hexVal_hexDigit (n : Nat) (h : n < 16) :
    hexVal (hexDigit n) = n := by
  simp only [hexDigit, hexVal]
  rcases Nat.lt_or_ge n 10 with h10 | h10
  · simp only [if_pos h10, if_pos (by omega : 48 + n ≤ 57)]
    omega
  · simp only [if_neg (by omega : ¬ n < 10), if_neg (by omega : ¬ 87 + n ≤ 57)]
    omega

/-- Feeding the hexadecimal rendering of `n` accumulates `n` into the
chunk-size state. -/
theorem feed_toHex (mode : Mode) (n : Nat) :
    ∀ (acc : Nat) (seen : Bool) (rest : List Nat),
      feed mode (.chunkSize acc seen) (toHex n ++ rest)
        = feed mode (.chunkSize (acc * 16 ^ (toHex n).length + n) true) rest := by
  induction n using toHex.induct with
  | case1 n h =>
    intro acc seen rest
    rw [toHex, dif_pos h]
    simp only [List.cons_append, List.nil_append, feed, step,
      isHexDigit_hexDigit n h, if_pos rfl, hexVal_hexDigit n h,
      List.length_cons, List.length_nil]
    norm_num [Nat.mul_comm]
  | case2 n h ih =>
    intro acc seen rest
    rw [toHex, dif_neg h]
    rw [List.append_assoc]
    rw [ih acc seen ([hexDigit (n % 16)] ++ rest)]
    simp only [List.cons_append, List.nil_append, List.append_nil, feed, step,
      isHexDigit_hexDigit (n % 16) (Nat.mod_lt n (by omega)), if_true,
      hexVal_hexDigit (n % 16) (Nat.mod_lt n (by omega)),
      List.length_append, List.length_cons, List.length_nil, List.nil_append]
    have hdm : 16 * (n / 16) + n % 16 = n := Nat.div_add_mod n 16
    have harith :
        16 * (acc * 16 ^ (toHex (n / 16)).length + n / 16) + n % 16
          = acc * 16 ^ ((toHex (n / 16)).length + 1) + n := by
      calc 16 * (acc * 16 ^ (toHex (n / 16)).length + n / 16) + n % 16
          = 16 * (acc * 16 ^ (toHex (n / 16)).length)
            + (16 * (n / 16) + n % 16) := by ring
        _ = acc * 16 ^ ((toHex (n / 16)).length + 1) + n := by
            rw [hdm, pow_succ]; ring
    rw [harith]
    simp

theorem isHexDigit_CR : isHexDigit CR = false := by decide

theorem feed_nil (mode : Mode) (s : PState) : feed mode s [] = (s, []) := rfl

theorem feed_cons (mode : Mode) (s : PState) (c : Nat) (t : List Nat) :
    feed mode s (c :: t)
      = ((feed mode (step mode s c).1 t).1,
         (step mode s c).2 ++ (feed mode (step mode s c).1 t).2) := rfl

theorem step_chunkSize_CR (mode : Mode) (n : Nat) :
    step mode (.chunkSize n true) CR = (.chunkSizeLF n, []) := by
  simp [step, isHexDigit_CR]

theorem step_chunkSizeLF_LF (mode : Mode) (n : Nat) :
    step mode (.chunkSizeLF n) LF
      = (if n = 0 then .lastCR else .chunkData n, []) := by
  simp [step]

theorem step_chunkData_eq (mode : Mode) (r : Nat) (c : Nat) :
    step mode (.chunkData r) c
      = (if r ≤ 1 then .chunkCR else .chunkData (r - 1), [c]) := rfl

theorem step_chunkCR_CR (mode : Mode) :
    step mode .chunkCR CR = (.chunkLF, []) := by simp [step]

theorem step_chunkLF_LF (mode : Mode) :
    step mode .chunkLF LF = (.chunkSize 0 false, []) := by simp [step]

theorem feed_chunkData (mode : Mode) (p : List Nat) :
    ∀ rest : List Nat, p ≠ [] →
      feed mode (.chunkData p.length) (p ++ rest)
        = ((feed mode .chunkCR rest).1, p ++ (feed mode .chunkCR rest).2) := by
  induction p with
  | nil => intro rest h; exact absurd rfl h
  | cons c cs ih =>
    intro rest _
    rw [List.cons_append, feed_cons, step_chunkData_eq]
    cases cs with
    | nil => simp
    | cons c2 cs2 =>
      rw [if_neg (by simp : ¬ (c :: c2 :: cs2).length ≤ 1)]
      have h1 : (c :: c2 :: cs2).length - 1 = (c2 :: cs2).length := by simp
      rw [h1]
      rw [show (c2 :: cs2 ++ rest : List Nat) = (c2 :: cs2) ++ rest from rfl]
      rw [ih rest (by simp)]
      simp

theorem feed_renderChunk (mode : Mode) (p : List Nat) (hp : p ≠ [])
    (rest : List Nat) :
    feed mode (.chunkSize 0 false) (renderChunk p ++ rest)
      = ((feed mode (.chunkSize 0 false) rest).1,
         p ++ (feed mode (.chunkSize 0 false) rest).2) := by
  have hassoc : renderChunk p ++ rest
      = toHex p.length ++ (CR :: LF :: (p ++ (CR :: LF :: rest))) := by
    simp [renderChunk]
  rw [hassoc, feed_toHex]
  simp only [zero_mul, zero_add]
  rw [feed_cons, step_chunkSize_CR]
  simp only [List.nil_append]
  rw [feed_cons, step_chunkSizeLF_LF]
  rw [if_neg (by simpa using hp : ¬ p.length = 0)]
  simp only [List.nil_append]
  rw [show (p ++ (CR :: LF :: rest) : List Nat) = p ++ ([CR] ++ ([LF] ++ rest))
    from by simp]
  rw [feed_chunkData mode p _ hp]
  simp only [List.cons_append, List.nil_append]
  rw [feed_cons, step_chunkCR_CR]
  simp only [List.nil_append]
  rw [feed_cons, step_chunkLF_LF]
  simp

theorem feed_terminator (mode : Mode) (rest : List Nat) :
    feed mode (.chunkSize 0 false) (renderChunk [] ++ rest)
      = feed mode .done rest := by
  have h0 : renderChunk [] ++ rest = 48 :: CR :: LF :: CR :: LF :: rest := by
    rw [renderChunk, toHex]
    simp [hexDigit]
  rw [h0]
  simp only [feed, step]
  norm_num [isHexDigit, hexVal, CR, LF]

theorem feed_done (mode : Mode) (rest : List Nat) :
    feed mode .done rest = (.done, []) := by
  induction rest with
  | nil => simp [feed]
  | cons c cs ih => simp [feed, step, ih]

theorem chunkWire_append (a b : List (List Nat)) :
    chunkWire (a ++ b) = chunkWire a ++ chunkWire b := by
  simp [chunkWire]

theorem feed_chunkWire (mode : Mode) (A : List (List Nat)) :
    ∀ rest : List Nat, (∀ c ∈ A, c ≠ []) →
      feed mode (.chunkSize 0 false) (chunkWire A ++ rest)
        = ((feed mode (.chunkSize 0 false) rest).1,
           A.flatten ++ (feed mode (.chunkSize 0 false) rest).2) := by
  induction A with
  | nil => intro rest _; simp [chunkWire]
  | cons c A' ih =>
    intro rest hA
    have hc : chunkWire (c :: A') ++ rest = renderChunk c ++ (chunkWire A' ++ rest) := by
      simp [chunkWire]
    rw [hc, feed_renderChunk mode c (hA c (by simp)) _,
      ih rest (fun d hd => hA d (by simp [hd]))]
    simp

/-- The full encoder output decomposes as the data chunks followed by the
terminating zero-length chunk, with every data chunk nonempty and bounded
by `max_chunk_size`, and the data chunks carrying exactly the input bytes. -/
theorem encodeAll_decomp (pieces : List (List Nat)) :
    ∃ A : List (List Nat),
      encodeAll pieces = A ++ [[]]
      ∧ (∀ c ∈ A, c ≠ [] ∧ c.length ≤ max_chunk_size)
      ∧ A.flatten = pieces.flatten := by
  refine ⟨(encodeRun ⟨[]⟩ pieces).1
    ++ (if (encodeRun ⟨[]⟩ pieces).2.pending.isEmpty then []
        else [(encodeRun ⟨[]⟩ pieces).2.pending]), ?_, ?_, ?_⟩
  · simp [encodeAll, chunked_encoder.encode_eof]
  · intro c hc
    simp only [List.mem_append] at hc
    rcases hc with hc | hc
    · have := encodeRun_chunk_len pieces ⟨[]⟩ c hc
      constructor
      · intro hnil; rw [hnil] at this; simp [max_chunk_size] at this
      · omega
    · rcases Bool.eq_false_or_eq_true
        (encodeRun ⟨[]⟩ pieces).2.pending.isEmpty with hemp | hemp
      · rw [if_pos hemp] at hc
        simp at hc
      · rw [if_neg (by simp [hemp])] at hc
        simp only [List.mem_singleton] at hc
        subst hc
        constructor
        · simpa [List.isEmpty_iff] using hemp
        · have := encodeRun_pending_len pieces ⟨[]⟩ (by simp [max_chunk_size])
          omega
  · have hrun := encodeRun_flatten pieces ⟨[]⟩
    simp only [List.nil_append] at hrun
    rcases Bool.eq_false_or_eq_true
      (encodeRun ⟨[]⟩ pieces).2.pending.isEmpty with hemp | hemp
    · rw [if_pos hemp]
      have hpe : (encodeRun ⟨[]⟩ pieces).2.pending = [] := by
        simpa [List.isEmpty_iff] using hemp
      rw [hpe] at hrun
      simpa using hrun
    · rw [if_neg (by simp [hemp])]
      simpa using hrun

/-- C1: for every byte sequence and every way of splitting it into pieces
fed through successive Chunk Encoder calls, decoding the concatenation of
all emitted wire chunks followed by the end-of-body terminator reproduces
exactly the original bytes. -/
theorem chunked_encode_decode_roundtrip (pieces : List (List Nat)) :
    decodeChunked (chunkWire (encodeAll pieces)) = some pieces.flatten := by
  obtain ⟨A, hdec, hA, hflat⟩ := encodeAll_decomp pieces
  rw [hdec, chunkWire_append]
  have hterm : chunkWire [[]] = renderChunk [] ++ [] := by simp [chunkWire]
  rw [decodeChunked]
  rw [feed_chunkWire .chunked A _ (fun c hc => (hA c hc).1)]
  rw [hterm, feed_terminator, feed_done]
  simp [hflat]

/-- C2: every non-terminal chunk emitted by the encoder is nonempty with
payload at most `max_chunk_size` (32 KiB), and exactly one zero-length
terminating chunk is emitted per body, as the last chunk. -/
theorem chunked_encoder_chunk_bounds (pieces : List (List Nat)) :
    (∀ c ∈ (encodeAll pieces).dropLast, c ≠ [] ∧ c.length ≤ max_chunk_size)
    ∧ (encodeAll pieces).getLast? = some []
    ∧ (encodeAll pieces).count [] = 1 := by
  obtain ⟨A, hdec, hA, _⟩ := encodeAll_decomp pieces
  rw [hdec]
  refine ⟨?_, ?_, ?_⟩
  · intro c hc
    rw [List.dropLast_concat] at hc
    exact hA c hc
  · rw [List.getLast?_concat]
  · rw [List.count_append]
    have hz : A.count ([] : List Nat) = 0 :=
      List.count_eq_zero.mpr (fun h => (hA [] h).1 rfl)
    simp [hz]

/-- The header terminator `\r\n\r\n`. -/
def hdrPat : List Nat := [CR, LF, CR, LF]

/-- Whether the parser is still inside the header section. -/
def isHeaderPhase : PState → Bool
  | .hdr _ => true
  | _ => false

/-- A well-formed header section: it ends with `\r\n\r\n` and the
terminator occurs nowhere earlier. -/
def wellFormedHeader (h : List Nat) : Prop :=
  hdrPat.IsSuffix h ∧ ∀ k, k < h.length → ¬ hdrPat.IsSuffix (h.take k)

instance wellFormedHeaderDec (h : List Nat) : Decidable (wellFormedHeader h) := by
  unfold wellFormedHeader
  infer_instance

theorem isHeaderPhase_bodyStart (mode : Mode) :
    isHeaderPhase (bodyStart mode) = false := by
  cases mode with
  | fixed n => cases n <;> simp [bodyStart, isHeaderPhase]
  | chunked => simp [bodyStart, isHeaderPhase]

theorem isHeaderPhase_step (mode : Mode) (s : PState) (c : Nat)
    (h : isHeaderPhase s = false) :
    isHeaderPhase (step mode s c).1 = false := by
  cases s <;> simp [isHeaderPhase] at h ⊢ <;>
    simp only [step] <;> split_ifs <;> simp [isHeaderPhase]

theorem step_hdr_out (mode : Mode) (m : Nat) (c : Nat) :
    (step mode (.hdr m) c).2 = [] := by
  simp only [step]; split_ifs <;> rfl

theorem step_hdr_exit (mode : Mode) (m : Nat) (c : Nat)
    (h : isHeaderPhase (step mode (.hdr m) c).1 = false) :
    m = 3 ∧ c = LF := by
  by_cases h3 : m = 3
  · subst h3
    by_cases hlf : c = LF
    · exact ⟨rfl, hlf⟩
    · exfalso
      simp only [step, if_pos rfl, if_neg hlf] at h
      split_ifs at h <;> simp [isHeaderPhase] at h
  · exfalso
    simp only [step, if_neg h3] at h
    split_ifs at h <;> simp [isHeaderPhase] at h

theorem feed_singleton (mode : Mode) (s : PState) (c : Nat) :
    feed mode s [c] = step mode s c := by
  simp [feed]

theorem suffix_append_singleton {l p : List Nat} (c : Nat)
    (h : l.IsSuffix p) : (l ++ [c]).IsSuffix (p ++ [c]) := by
  obtain ⟨t, rfl⟩ := h
  exact ⟨t, by simp⟩

/-- While the parser stays in the header phase, it emits no body bytes and
its state records a match of the first `m` bytes of the terminator, which
are a suffix of the input consumed so far. -/
theorem feed_hdr_char (mode : Mode) (p : List Nat)
    (hph : isHeaderPhase (feed mode (.hdr 0) p).1 = true) :
    (feed mode (.hdr 0) p).2 = []
    ∧ ∃ m, m ≤ 3 ∧ (feed mode (.hdr 0) p).1 = .hdr m
        ∧ (hdrPat.take m).IsSuffix p := by
  induction p using List.reverseRecOn with
  | nil => exact ⟨rfl, 0, by simp, rfl, by simp⟩
  | append_singleton p c ih =>
    rw [feed_append, feed_singleton] at hph ⊢
    have hprev : isHeaderPhase (feed mode (.hdr 0) p).1 = true := by
      by_contra hfalse
      rw [isHeaderPhase_step mode _ c
        (Bool.eq_false_iff.mpr (fun ht => hfalse ht))] at hph
      exact Bool.false_ne_true hph
    obtain ⟨hout, m, hm3, hst, hsuf⟩ := ih hprev
    rw [hst] at hph ⊢
    refine ⟨by simp [hout, step_hdr_out], ?_⟩
    interval_cases m
    · -- m = 0
      by_cases hcr : c = CR
      · subst hcr
        refine ⟨1, by omega, ?_, ?_⟩
        · simp [step]
        · exact ⟨p, by simp [hdrPat]⟩
      · refine ⟨0, by omega, ?_, by simp⟩
        simp [step, hcr]
    · -- m = 1
      by_cases hlf : c = LF
      · subst hlf
        refine ⟨2, by omega, by simp [step], ?_⟩
        have : (hdrPat.take 1 ++ [LF]).IsSuffix (p ++ [LF]) :=
          suffix_append_singleton LF hsuf
        simpa [hdrPat] using this
      · by_cases hcr : c = CR
        · subst hcr
          refine ⟨1, by omega, by simp [step, hlf], ⟨p, by simp [hdrPat]⟩⟩
        · refine ⟨0, by omega, by simp [step, hlf, hcr], by simp⟩
    · -- m = 2
      by_cases hcr : c = CR
      · subst hcr
        refine ⟨3, by omega, by simp [step], ?_⟩
        have : (hdrPat.take 2 ++ [CR]).IsSuffix (p ++ [CR]) :=
          suffix_append_singleton CR hsuf
        simpa [hdrPat] using this
      · refine ⟨0, by omega, by simp [step, hcr], by simp⟩
    · -- m = 3: exit on LF contradicts hph; CR and other stay
      by_cases hlf : c = LF
      · exfalso
        subst hlf
        simp [step, isHeaderPhase_bodyStart] at hph
      · by_cases hcr : c = CR
        · subst hcr
          refine ⟨1, by omega, by simp [step, hlf], ⟨p, by simp [hdrPat]⟩⟩
        · refine ⟨0, by omega, by simp [step, hlf, hcr], by simp⟩

/-- On a well-formed header, the parser is still in the header phase after
every proper prefix. -/
theorem feed_hdr_no_early (mode : Mode) (h : List Nat)
    (wf : wellFormedHeader h) :
    ∀ k, k < h.length → isHeaderPhase (feed mode (.hdr 0) (h.take k)).1 = true := by
  intro k
  induction k with
  | zero => intro _; simp [feed, isHeaderPhase]
  | succ k ih =>
    intro hk1
    have hk : k < h.length := by omega
    have hprev := ih hk
    have htake : h.take (k + 1) = h.take k ++ [h.get ⟨k, hk⟩] := by
      rw [List.take_succ]
      simp [List.getElem?_eq_getElem hk, List.get_eq_getElem]
    rw [htake, feed_append, feed_singleton]
    by_contra hfalse
    have hexit : isHeaderPhase
        (step mode (feed mode (.hdr 0) (h.take k)).1 (h.get ⟨k, hk⟩)).1 = false :=
      Bool.eq_false_iff.mpr (fun ht => hfalse ht)
    obtain ⟨_, m, _, hst, hsuf⟩ := feed_hdr_char mode _ hprev
    rw [hst] at hexit
    obtain ⟨hm3, hlf⟩ := step_hdr_exit mode m _ hexit
    subst hm3
    have hsuf4 : hdrPat.IsSuffix (h.take (k + 1)) := by
      rw [htake, hlf]
      have : (hdrPat.take 3 ++ [LF]).IsSuffix (h.take k ++ [LF]) :=
        suffix_append_singleton LF hsuf
      simpa [hdrPat] using this
    exact wf.2 (k + 1) hk1 hsuf4

theorem feed_hdrPat_from0 (mode : Mode) :
    feed mode (.hdr 0) hdrPat = (bodyStart mode, []) := by
  simp [hdrPat, feed, step, CR, LF]

theorem feed_hdrPat_from1 (mode : Mode) :
    feed mode (.hdr 1) hdrPat = (bodyStart mode, []) := by
  simp [hdrPat, feed, step, CR, LF]

theorem feed_hdrPat_from3 (mode : Mode) :
    feed mode (.hdr 3) hdrPat = (bodyStart mode, []) := by
  simp [hdrPat, feed, step, CR, LF]

/-- Feeding a well-formed header section from the initial state consumes
it exactly: the parser ends in the start-of-body state having emitted no
body bytes. -/
theorem feed_header (mode : Mode) (h : List Nat) (wf : wellFormedHeader h) :
    feed mode (.hdr 0) h = (bodyStart mode, []) := by
  obtain ⟨h', rfl⟩ := wf.1
  have hlen : h'.length < (h' ++ hdrPat).length := by simp [hdrPat]
  have htk : (h' ++ hdrPat).take h'.length = h' := by
    simpa using List.take_left h' hdrPat
  have hph := feed_hdr_no_early mode _ wf h'.length hlen
  rw [htk] at hph
  obtain ⟨hout, m, hm3, hst, hsuf⟩ := feed_hdr_char mode h' hph
  have hm2 : m ≠ 2 := by
    intro hm2
    subst hm2
    have hsuf4 : hdrPat.IsSuffix ((h' ++ hdrPat).take (h'.length + 2)) := by
      have htk2 : (h' ++ hdrPat).take (h'.length + 2) = h' ++ hdrPat.take 2 :=
        List.take_append 2
      rw [htk2]
      obtain ⟨t, ht⟩ := hsuf
      refine ⟨t, ?_⟩
      rw [← ht]
      simp [hdrPat]
    exact wf.2 (h'.length + 2) (by simp [hdrPat]) hsuf4
  rw [feed_append, hst, hout]
  interval_cases m
  · rw [feed_hdrPat_from0]; simp
  · rw [feed_hdrPat_from1]; simp
  · exact absurd rfl hm2
  · rw [feed_hdrPat_from3]; simp

theorem step_fixedBody_eq (mode : Mode) (r : Nat) (c : Nat) :
    step mode (.fixedBody r) c
      = (if r ≤ 1 then .done else .fixedBody (r - 1), [c]) := rfl

/-- Feeding a declared-length body consumes it exactly, emitting it. -/
theorem feed_fixedBody (mode : Mode) (b : List Nat) :
    b ≠ [] → feed mode (.fixedBody b.length) b = (.done, b) := by
  induction b with
  | nil => intro hb; exact absurd rfl hb
  | cons c cs ih =>
    intro _
    rw [feed_cons, step_fixedBody_eq]
    cases cs with
    | nil => simp [feed]
    | cons c2 cs2 =>
      rw [if_neg (by simp : ¬ (c :: c2 :: cs2).length ≤ 1)]
      have h1 : (c :: c2 :: cs2).length - 1 = (c2 :: cs2).length := by simp
      rw [h1, ih (by simp)]
      simp

/-- A well-formed framing of `body` on the wire under `mode`: either a
fixed-length body whose declared length is exactly `body.length`, or a
chunked stream of nonempty chunks carrying `body`, ended by the
terminator. -/
def wellFormedFraming (mode : Mode) (body wire : List Nat) : Prop :=
  (mode = .fixed body.length ∧ wire = body)
  ∨ (mode = .chunked ∧ ∃ chunks : List (List Nat),
      (∀ c ∈ chunks, c ≠ []) ∧ body = chunks.flatten
      ∧ wire = chunkWire chunks ++ renderChunk [])

/-- Feeding a well-formed body framing from the start-of-body state
extracts exactly the body and reaches the done state. -/
theorem feed_bodyStart (mode : Mode) (body wire : List Nat)
    (hf : wellFormedFraming mode body wire) :
    feed mode (bodyStart mode) wire = (.done, body) := by
  rcases hf with ⟨hm, hw⟩ | ⟨hm, chunks, hne, hb, hw⟩
  · subst hm
    rw [hw]
    cases body with
    | nil => simp [bodyStart, feed]
    | cons c cs =>
      show feed _ (bodyStart (.fixed (c :: cs).length)) _ = _
      have : bodyStart (.fixed (c :: cs).length) = .fixedBody (c :: cs).length := by
        simp [bodyStart]
      rw [this, feed_fixedBody _ _ (by simp)]
  · subst hm; subst hw; subst hb
    show feed .chunked (.chunkSize 0 false) _ = _
    rw [feed_chunkWire .chunked chunks _ hne]
    rw [show renderChunk [] = renderChunk [] ++ [] from by simp,
      feed_terminator, feed_nil]
    simp

/-- Feeding a complete well-formed response message from the initial
parser state extracts exactly the body and reaches the done state. -/
theorem feed_message (mode : Mode) (h body wire : List Nat)
    (wfh : wellFormedHeader h) (wff : wellFormedFraming mode body wire) :
    feed mode (.hdr 0) (h ++ wire) = (.done, body) := by
  rw [feed_append, feed_header mode h wfh, feed_bodyStart mode body wire wff]
  simp

/-- Modelled from the spec: the state of `client::response_stream`
(`client.cc` is not under `src/`; modelled per spec §4.3).  `parser` is the
incremental parser, `headers` the consumed raw header bytes, `buffer` the
bytes read from transport but not yet consumed by the caller, `prefetch`
the surplus bytes consumed from transport during header prefetch, and
`pieces` the remaining transport reads. -/
structure response_stream where
  parser : PState
  headers : List Nat
  buffer : List Nat
  prefetch : List Nat
  pieces : List (List Nat)

/-- `response_stream::is_header_done`: the parser finished the header
section. -/
def response_stream.is_header_done (s : response_stream) : Bool :=
  !isHeaderPhase s.parser

/-- `response_stream::is_done`: the parser consumed the whole payload. -/
def response_stream.is_done (s : response_stream) : Bool :=
  decide (s.parser = PState.done)

/-- Feed bytes while the parser is inside the header section, stopping at
the header boundary.  Returns the final parser state, the consumed bytes
and the unconsumed leftover. -/
def feedHdr (mode : Mode) : PState → List Nat → PState × List Nat × List Nat
  | s, [] => (s, [], [])
  | s, c :: cs =>
    if isHeaderPhase s then
      let r := feedHdr mode (step mode s c).1 cs
      (r.1, c :: r.2.1, r.2.2)
    else (s, [], c :: cs)

/-- Read transport pieces one by one, feeding them into the parser while
the header section is unfinished; returns the final parser state, the
accumulated consumed header bytes, the retained surplus bytes and the
unread transport pieces. -/
def prefetchLoop (mode : Mode) (st : PState) (hdrs pre : List Nat) :
    List (List Nat) → PState × List Nat × List Nat × List (List Nat)
  | [] => (st, hdrs, pre, [])
  | p :: ps =>
    if isHeaderPhase st then
      let r := feedHdr mode st p
      prefetchLoop mode r.1 (hdrs ++ r.2.1) (pre ++ r.2.2) ps
    else (st, hdrs, pre, p :: ps)

/-- Modelled from the spec: `response_stream::prefetch_headers` reads from
the transport until the header is parsed; bytes read past the header
boundary are retained in `prefetch`, not discarded. -/
def prefetch_headers (mode : Mode) (s : response_stream) : response_stream :=
  let r := prefetchLoop mode s.parser s.headers s.prefetch s.pieces
  ⟨r.1, r.2.1, s.buffer, r.2.2.1, r.2.2.2⟩

/-- Modelled from the spec: `response_stream::recv_some` returns the next
slice of body bytes, draining `prefetch` first, then `buffer`, then a
fresh transport read, all passed through the parser so that framing bytes
are stripped. -/
def recv_some (mode : Mode) (s : response_stream) :
    List Nat × response_stream :=
  if s.prefetch ≠ [] then
    let r := feed mode s.parser s.prefetch
    (r.2, { s with parser := r.1, prefetch := [] })
  else if s.buffer ≠ [] then
    let r := feed mode s.parser s.buffer
    (r.2, { s with parser := r.1, buffer := [] })
  else
    match s.pieces with
    | [] => ([], s)
    | p :: ps =>
      let r := feed mode s.parser p
      (r.2, { s with parser := r.1, pieces := ps })

/-- Termination measure for iterated `recv_some`. -/
def recvMeasure (s : response_stream) : Nat :=
  2 * s.pieces.length + (if s.prefetch = [] then 0 else 1)
    + (if s.buffer = [] then 0 else 1)

theorem recv_some_measure (mode : Mode) (s : response_stream)
    (h : ¬ (s.prefetch = [] ∧ s.buffer = [] ∧ s.pieces = [])) :
    recvMeasure (recv_some mode s).2 < recvMeasure s := by
  by_cases hp : s.prefetch = []
  · by_cases hb : s.buffer = []
    · cases hpieces : s.pieces with
      | nil => exact absurd ⟨hp, hb, hpieces⟩ h
      | cons p ps =>
        simp [recv_some, hp, hb, hpieces, recvMeasure]
    · simp [recv_some, hp, hb, recvMeasure]
  · simp [recv_some, hp, recvMeasure]

/-- Iterate `recv_some` until the stream's sources are exhausted,
collecting all returned body slices. -/
def recvAll (mode : Mode) (s : response_stream) :
    List Nat × response_stream :=
  if h : s.prefetch = [] ∧ s.buffer = [] ∧ s.pieces = [] then ([], s)
  else
    let r := recv_some mode s
    let rest := recvAll mode r.2
    (r.1 ++ rest.1, rest.2)
termination_by recvMeasure s
decreasing_by exact recv_some_measure mode s h

theorem isHeaderPhase_true_iff (s : PState) :
    isHeaderPhase s = true ↔ ∃ m, s = .hdr m := by
  cases s <;> simp [isHeaderPhase]

/-- Header prefetch retains every byte: the consumed part and the leftover
recombine to the original read. -/
theorem feedHdr_split (mode : Mode) :
    ∀ (p : List Nat) (st : PState),
      (feedHdr mode st p).2.1 ++ (feedHdr mode st p).2.2 = p := by
  intro p
  induction p with
  | nil => intro st; simp [feedHdr]
  | cons c cs ih =>
    intro st
    by_cases hph : isHeaderPhase st = true
    · simp [feedHdr, hph, ih]
    · simp [feedHdr, hph]

/-- The bytes consumed by `feedHdr` advance the parser to the returned
state, emitting no body bytes. -/
theorem feedHdr_feed (mode : Mode) :
    ∀ (p : List Nat) (st : PState),
      feed mode st (feedHdr mode st p).2.1 = ((feedHdr mode st p).1, []) := by
  intro p
  induction p with
  | nil => intro st; simp [feedHdr, feed]
  | cons c cs ih =>
    intro st
    by_cases hph : isHeaderPhase st = true
    · obtain ⟨m, rfl⟩ := (isHeaderPhase_true_iff st).mp hph
      simp only [feedHdr, hph, if_true]
      rw [feed_cons, ih (step mode (.hdr m) c).1]
      simp [step_hdr_out]
    · simp [feedHdr, hph, feed]

/-- `feedHdr` only leaves bytes unconsumed once the header is complete. -/
theorem feedHdr_leftover_phase (mode : Mode) :
    ∀ (p : List Nat) (st : PState),
      (feedHdr mode st p).2.2 ≠ [] → isHeaderPhase (feedHdr mode st p).1 = false := by
  intro p
  induction p with
  | nil => intro st hne; simp [feedHdr] at hne
  | cons c cs ih =>
    intro st hne
    by_cases hph : isHeaderPhase st = true
    · simp only [feedHdr, hph, if_true] at hne ⊢
      exact ih _ hne
    · simp only [feedHdr, hph, if_false]
      exact Bool.eq_false_iff.mpr hph

/-- If the parser has already left the header section, the prefetch loop
reads nothing. -/
theorem prefetchLoop_stopped (mode : Mode) (st : PState) (hdrs pre : List Nat)
    (ps : List (List Nat)) (h : isHeaderPhase st = false) :
    prefetchLoop mode st hdrs pre ps = (st, hdrs, pre, ps) := by
  cases ps with
  | nil => rfl
  | cons p ps => simp [prefetchLoop, h]

/-- The prefetch loop only advances the parser over bytes it retains:
afterwards, parsing the retained surplus plus the remaining transport
reads equals parsing all reads from the initial state. -/
theorem prefetchLoop_feed (mode : Mode) :
    ∀ (ps : List (List Nat)) (st : PState) (hdrs : List Nat),
      feed mode (prefetchLoop mode st hdrs [] ps).1
          ((prefetchLoop mode st hdrs [] ps).2.2.1
            ++ (prefetchLoop mode st hdrs [] ps).2.2.2.flatten)
        = feed mode st ps.flatten := by
  intro ps
  induction ps with
  | nil => intro st hdrs; simp [prefetchLoop]
  | cons p ps ih =>
    intro st hdrs
    by_cases hph : isHeaderPhase st = true
    · simp only [prefetchLoop, hph, if_true]
      have hsplit := feedHdr_split mode p st
      have hfeed := feedHdr_feed mode p st
      by_cases hph2 : isHeaderPhase (feedHdr mode st p).1 = true
      · have hleft : (feedHdr mode st p).2.2 = [] := by
          by_contra hne
          rw [feedHdr_leftover_phase mode p st hne] at hph2
          exact Bool.false_ne_true hph2
        rw [show ([] : List Nat) ++ (feedHdr mode st p).2.2 = [] from by simp [hleft]]
        rw [ih (feedHdr mode st p).1 (hdrs ++ (feedHdr mode st p).2.1)]
        have hp2 : (feedHdr mode st p).2.1 = p := by
          conv_rhs => rw [← hsplit]
          rw [hleft]
          simp
        rw [List.flatten_cons]
        conv_rhs => rw [← hp2]
        rw [feed_append, hfeed]
        simp
      · rw [prefetchLoop_stopped mode _ _ _ _ (Bool.eq_false_iff.mpr hph2)]
        show feed mode (feedHdr mode st p).1
            (([] ++ (feedHdr mode st p).2.2) ++ ps.flatten)
          = feed mode st ((p :: ps).flatten)
        rw [List.nil_append, List.flatten_cons]
        conv_rhs => rw [← hsplit]
        rw [List.append_assoc]
        conv_rhs => rw [feed_append, hfeed]
        simp
    · rw [prefetchLoop_stopped mode _ _ _ _ (Bool.eq_false_iff.mpr hph)]
      simp

/-- `prefetch_headers` leaves the caller-visible buffer untouched and only
advances the parser over bytes it retains in the prefetch: parsing the
retained prefetch plus the remaining transport reads from the post-call
state equals parsing all transport reads from the pre-call state. -/
theorem prefetch_headers_spec (mode : Mode) (s : response_stream)
    (hpre : s.prefetch = []) :
    (prefetch_headers mode s).buffer = s.buffer
    ∧ feed mode (prefetch_headers mode s).parser
        ((prefetch_headers mode s).prefetch
          ++ (prefetch_headers mode s).pieces.flatten)
      = feed mode s.parser s.pieces.flatten := by
  refine ⟨rfl, ?_⟩
  show feed mode (prefetchLoop mode s.parser s.headers s.prefetch s.pieces).1
      ((prefetchLoop mode s.parser s.headers s.prefetch s.pieces).2.2.1
        ++ (prefetchLoop mode s.parser s.headers s.prefetch s.pieces).2.2.2.flatten)
    = feed mode s.parser s.pieces.flatten
  rw [hpre]
  exact prefetchLoop_feed mode s.pieces s.parser s.headers

/-- Iterated `recv_some` delivers exactly the parser's output over
`prefetch`, then `buffer`, then the remaining transport reads, in that
order, and leaves the parser in the state reached by that single pass. -/
theorem recvAll_step (mode : Mode) (s : response_stream)
    (h : ¬ (s.prefetch = [] ∧ s.buffer = [] ∧ s.pieces = [])) :
    recvAll mode s
      = ((recv_some mode s).1 ++ (recvAll mode (recv_some mode s).2).1,
         (recvAll mode (recv_some mode s).2).2) := by
  rw [recvAll, dif_neg h]

/-- Iterated `recv_some` delivers exactly the parser's output over
`prefetch`, then `buffer`, then the remaining transport reads, in that
order, and leaves the parser in the state reached by that single pass. -/
theorem recvAll_feed (mode : Mode) :
    ∀ s : response_stream,
      (recvAll mode s).1
          = (feed mode s.parser (s.prefetch ++ (s.buffer ++ s.pieces.flatten))).2
      ∧ (recvAll mode s).2.parser
          = (feed mode s.parser (s.prefetch ++ (s.buffer ++ s.pieces.flatten))).1 := by
  intro s
  induction s using recvAll.induct mode with
  | case1 x h =>
    obtain ⟨h1, h2, h3⟩ := h
    rw [recvAll, dif_pos ⟨h1, h2, h3⟩]
    simp [h1, h2, h3, feed_nil]
  | case2 x h r ih =>
    rw [recvAll_step mode x h]
    by_cases hp : x.prefetch = []
    · by_cases hb : x.buffer = []
      · cases hpieces : x.pieces with
        | nil => exact absurd ⟨hp, hb, hpieces⟩ h
        | cons p ps =>
          have hrs : recv_some mode x
              = ((feed mode x.parser p).2,
                 { x with parser := (feed mode x.parser p).1, pieces := ps }) := by
            simp [recv_some, hp, hb, hpieces]
          rw [show r = ((feed mode x.parser p).2,
              { x with parser := (feed mode x.parser p).1, pieces := ps })
            from hrs] at ih
          rw [hrs]
          simp only [hp, hb, hpieces, List.nil_append, List.flatten_cons]
          rw [feed_append]
          simp only [hp, hb, List.nil_append] at ih
          exact ⟨by rw [ih.1], by rw [ih.2]⟩
      · have hrs : recv_some mode x
            = ((feed mode x.parser x.buffer).2,
               { x with parser := (feed mode x.parser x.buffer).1,
                        buffer := [] }) := by
          simp [recv_some, hp, hb]
        rw [show r = ((feed mode x.parser x.buffer).2,
            { x with parser := (feed mode x.parser x.buffer).1, buffer := [] })
          from hrs] at ih
        rw [hrs]
        simp only [hp, List.nil_append]
        rw [feed_append]
        simp only [hp, List.nil_append] at ih
        exact ⟨by rw [ih.1], by rw [ih.2]⟩
    · have hrs : recv_some mode x
          = ((feed mode x.parser x.prefetch).2,
             { x with parser := (feed mode x.parser x.prefetch).1,
                      prefetch := [] }) := by
        simp [recv_some, hp]
      rw [show r = ((feed mode x.parser x.prefetch).2,
          { x with parser := (feed mode x.parser x.prefetch).1, prefetch := [] })
        from hrs] at ih
      rw [hrs]
      rw [feed_append]
      simp only [List.nil_append] at ih
      exact ⟨by rw [ih.1], by rw [ih.2]⟩

/-- A freshly created response stream: parser at the start, empty
buffers, the given transport reads ahead. -/
def initial_response_stream (pieces : List (List Nat)) : response_stream :=
  ⟨.hdr 0, [], [], [], pieces⟩

/-- C3: for every well-formed response (fixed-length or chunked) split
arbitrarily into transport reads, the concatenation of the slices
returned by successive `recv_some` calls equals exactly the message body
-- no header bytes and no chunk-framing bytes -- and `is_done` then
holds. -/
theorem response_stream_body_exact (mode : Mode) (h body wire : List Nat)
    (pieces : List (List Nat)) (wfh : wellFormedHeader h)
    (wff : wellFormedFraming mode body wire)
    (hsplit : pieces.flatten = h ++ wire) :
    (recvAll mode (prefetch_headers mode (initial_response_stream pieces))).1
        = body
    ∧ (recvAll mode (prefetch_headers mode
        (initial_response_stream pieces))).2.is_done = true := by
  have hspec := prefetch_headers_spec mode (initial_response_stream pieces) rfl
  have hbuf : (prefetch_headers mode (initial_response_stream pieces)).buffer
      = [] := hspec.1
  have hfeedall : feed mode
      (prefetch_headers mode (initial_response_stream pieces)).parser
      ((prefetch_headers mode (initial_response_stream pieces)).prefetch
        ++ (prefetch_headers mode (initial_response_stream pieces)).pieces.flatten)
      = (.done, body) := by
    rw [hspec.2]
    show feed mode (.hdr 0) pieces.flatten = _
    rw [hsplit]
    exact feed_message mode h body wire wfh wff
  have hrf := recvAll_feed mode
    (prefetch_headers mode (initial_response_stream pieces))
  rw [hbuf] at hrf
  simp only [List.nil_append] at hrf
  rw [hfeedall] at hrf
  refine ⟨hrf.1, ?_⟩
  simp [response_stream.is_done, hrf.2]

set_option maxRecDepth 8000

/-- Witness for C3 on the spec's scenario: header `A\r\n\r\n` and chunked
body `5\r\nhello\r\n0\r\n\r\n` split across two transport reads that cut
inside the header terminator; the delivered bytes are exactly `hello`. -/
theorem response_stream_body_exact_witness :
    wellFormedHeader [65, CR, LF, CR, LF]
    ∧ (recvAll Mode.chunked (prefetch_headers Mode.chunked
        (initial_response_stream
          [[65, CR, LF, CR],
           [LF, 53, CR, LF, 104, 101, 108, 108, 111, CR, LF,
            48, CR, LF, CR, LF]]))).1
      = [104, 101, 108, 108, 111] :=
  ⟨by decide,
   (response_stream_body_exact Mode.chunked [65, CR, LF, CR, LF]
      [104, 101, 108, 108, 111]
      [53, CR, LF, 104, 101, 108, 108, 111, CR, LF, 48, CR, LF, CR, LF]
      [[65, CR, LF, CR],
       [LF, 53, CR, LF, 104, 101, 108, 108, 111, CR, LF, 48, CR, LF, CR, LF]]
      (by decide)
      (Or.inr ⟨rfl, [[104, 101, 108, 108, 111]], by decide, rfl, by
        have ht5 : toHex 5 = [53] := by rw [toHex]; simp [hexDigit]
        have ht0 : toHex 0 = [48] := by rw [toHex]; simp [hexDigit]
        simp [chunkWire, renderChunk, ht5, ht0, CR, LF]⟩)
      (by decide)).1⟩

/-- C4: in every state of a Response Stream, the bytes still to be
delivered come from `prefetch` first, then `buffer`, then freshly read
transport bytes, each transport byte passing through the parser exactly
once -- no byte is delivered twice or dropped; and header prefetch
retains the bytes read past the header boundary (consumed plus leftover
recombine to the read). -/
theorem response_stream_source_order (mode : Mode) (s : response_stream) :
    ((recvAll mode s).1
        = (feed mode s.parser (s.prefetch ++ (s.buffer ++ s.pieces.flatten))).2)
    ∧ ∀ (st : PState) (p : List Nat),
        (feedHdr mode st p).2.1 ++ (feedHdr mode st p).2.2 = p :=
  ⟨(recvAll_feed mode s).1, fun st p => feedHdr_split mode p st⟩

/-- Errors signalled by the modelled client operations. -/
inductive client_error
  | stream_closed
  | precondition_violation
deriving DecidableEq

/-- Modelled from the spec: `response_stream::get_headers` (its body is in
`client.cc`, not under `src/`).  Returns the parsed header bytes; calling
it before `is_header_done()` is a precondition violation.  The C++
declaration returns `response_header const&` directly rather than a
future, so the violation is signalled synchronously; the model mirrors
this by returning `Except` from a plain (non-deferred) function. -/
def response_stream.get_headers (s : response_stream) :
    Except client_error (List Nat) :=
  if s.is_header_done then Except.ok s.headers
  else Except.error client_error.precondition_violation

/-- C6: calling `get_headers()` while `is_header_done()` is false signals
a precondition violation, synchronously (the result is an immediate error
value, not a deferred one). -/
theorem get_headers_precondition (s : response_stream)
    (h : s.is_header_done = false) :
    s.get_headers = Except.error client_error.precondition_violation := by
  simp [response_stream.get_headers, h]

/-- Witness for C6: a fresh response stream has no parsed header, and
`get_headers` on it reports the precondition violation. -/
theorem get_headers_precondition_witness :
    (initial_response_stream []).is_header_done = false
    ∧ (initial_response_stream []).get_headers
        = Except.error client_error.precondition_violation :=
  ⟨rfl, get_headers_precondition _ rfl⟩

/-- Modelled from the spec: the state of `client::request_stream` (§4.2;
`client.cc` is not under `src/`).  `header` holds the serialized request
header bytes, `chunked` the advertised transfer mode, `encoder` the
persistent chunk-encoding state, `header_sent` whether the header was
already transmitted, and `done` whether `send_eof` completed. -/
structure request_stream where
  header : List Nat
  chunked : Bool
  encoder : chunked_encoder
  header_sent : Bool
  done : Bool

/-- `request_stream::is_done`: true once `send_eof` has completed. -/
def request_stream.is_done (rs : request_stream) : Bool := rs.done

/-- Modelled from the spec: `request_stream::send_some` — serializes and
sends the header first if it was not sent, passes the data through the
Chunk Encoder in chunked mode (verbatim otherwise), and signals an error
once the stream is done. -/
def request_stream.send_some (rs : request_stream) (data : List Nat) :
    Except client_error (request_stream × List Nat) :=
  if rs.done then Except.error client_error.stream_closed
  else
    let hdrOut := if rs.header_sent then [] else rs.header
    if rs.chunked then
      let r := rs.encoder.encode data
      Except.ok ({ rs with encoder := r.1, header_sent := true },
        hdrOut ++ chunkWire r.2)
    else Except.ok ({ rs with header_sent := true }, hdrOut ++ data)

/-- Modelled from the spec: `request_stream::send_eof` — emits the
terminating zero-length chunk when chunked and marks the stream done. -/
def request_stream.send_eof (rs : request_stream) :
    request_stream × List Nat :=
  ({ rs with header_sent := true, done := true, encoder := ⟨[]⟩ },
   (if rs.header_sent then [] else rs.header)
     ++ (if rs.chunked then chunkWire rs.encoder.encode_eof else []))

/-- C7: once `send_eof()` has completed (`is_done()` is true), every
subsequent `send_some` call signals an error instead of silently
succeeding. -/
theorem send_some_after_eof_errors (rs : request_stream) (data : List Nat)
    (h : rs.is_done = true) :
    rs.send_some data = Except.error client_error.stream_closed := by
  have hd : rs.done = true := h
  simp [request_stream.send_some, hd]

/-- Witness for C7: after `send_eof` on a fresh chunked request stream,
`is_done` holds and `send_some` fails. -/
theorem send_some_after_eof_errors_witness :
    ((⟨[72], true, ⟨[]⟩, false, false⟩ : request_stream).send_eof.1).is_done
        = true
    ∧ ((⟨[72], true, ⟨[]⟩, false, false⟩ : request_stream).send_eof.1).send_some
        [1, 2] = Except.error client_error.stream_closed :=
  ⟨rfl, send_some_after_eof_errors _ _ rfl⟩

end HttpClient

namespace Cluster

/-! Value types of `src/v/cluster/partition_balancer_types.h`.  C++
machine integers are modelled as mathematical integers together with the
explicit modulus arithmetic of the casts the serializers perform:
`4294967296 = 2^32`, `2147483648 = 2^31`, `18446744073709551616 = 2^64`,
`9223372036854775808 = 2^63`. -/

/-- `model::node_id`, a named wrapper around `int32_t`. -/
structure node_id where
  value : Int
deriving DecidableEq

/-- `model::timestamp`, a named wrapper around `int64_t`. -/
structure timestamp where
  value : Int
deriving DecidableEq

/-- `partition_balancer_violations::unavailable_node`. -/
structure unavailable_node where
  id : node_id
  unavailable_since : timestamp
deriving DecidableEq

/-- `partition_balancer_violations::full_node` (`disk_used_percent` is a
`uint32_t`, modelled as a `Nat` that the serializer reduces mod `2^32`). -/
structure full_node where
  id : node_id
  disk_used_percent : Nat
deriving DecidableEq

/-- `cluster::partition_balancer_violations`. -/
structure partition_balancer_violations where
  unavailable_nodes : List unavailable_node
  full_nodes : List full_node
deriving DecidableEq

/-- `model::node_id::operator==` (underlying integer equality). -/
def node_id_eq (a b : node_id) : Bool := a.value == b.value

/-- `model::timestamp::operator==` (underlying integer equality). -/
def timestamp_eq (a b : timestamp) : Bool := a.value == b.value

/-- `unavailable_node::operator==`: compares both fields. -/
def unavailable_node_eq (a b : unavailable_node) : Bool :=
  node_id_eq a.id b.id && timestamp_eq a.unavailable_since b.unavailable_since

/-- `full_node::operator==`: compares both fields. -/
def full_node_eq (a b : full_node) : Bool :=
  node_id_eq a.id b.id && (a.disk_used_percent == b.disk_used_percent)

/-- `std::vector::operator==`: elementwise equality. -/
def listEqBy {α : Type} (f : α → α → Bool) : List α → List α → Bool
  | [], [] => true
  | a :: as, b :: bs => f a b && listEqBy f as bs
  | _, _ => false

/-- `partition_balancer_violations::operator==`: compares both vectors. -/
def partition_balancer_violations_eq
    (a b : partition_balancer_violations) : Bool :=
  listEqBy unavailable_node_eq a.unavailable_nodes b.unavailable_nodes
    && listEqBy full_node_eq a.full_nodes b.full_nodes

/-- One primitive value on the ADL wire.  The generic integer and
`std::vector` codecs of `reflection/adl.h` are not under `src/`, so the
wire is modelled as a typed token stream: an `i32` token for `int32_t`
values (bit pattern), a `u32` and a `u64` token for the unsigned casts
the specializations in `partition_balancer_types.h` perform. -/
inductive AdlTok
  | i32 (p : Nat)
  | u32 (p : Nat)
  | u64 (p : Nat)
deriving DecidableEq

/-- Bit pattern of `v` as `uint32_t` (the C++ cast `int32_t → wire`). -/
def toUInt32p (v : Int) : Nat := (v % 4294967296).toNat

/-- Signed value of a 32-bit pattern (two's complement). -/
def ofInt32p (p : Nat) : Int :=
  if p < 2147483648 then (p : Int) else (p : Int) - 4294967296

/-- Bit pattern of `v` as `uint64_t` (the C++ cast
`uint64_t(n.unavailable_since.value())`). -/
def toUInt64p (v : Int) : Nat := (v % 18446744073709551616).toNat

/-- Signed value of a 64-bit pattern (the C++ implicit conversion
`uint64_t → int64_t` in `model::timestamp(unavailable_since)`). -/
def ofInt64p (p : Nat) : Int :=
  if p < 9223372036854775808 then (p : Int) else (p : Int) - 18446744073709551616

/-- `adl<model::node_id>::to`: one `int32` value. -/
def adl_to_node_id (n : node_id) : List AdlTok := [.i32 (toUInt32p n.value)]

/-- `adl<model::node_id>::from`. -/
def adl_from_node_id : List AdlTok → Option (node_id × List AdlTok)
  | .i32 p :: rest => some (⟨ofInt32p p⟩, rest)
  | _ => none

/-- `adl<uint64_t>::from`. -/
def adl_from_u64 : List AdlTok → Option (Nat × List AdlTok)
  | .u64 p :: rest => some (p, rest)
  | _ => none

/-- `adl<uint32_t>::from`. -/
def adl_from_u32 : List AdlTok → Option (Nat × List AdlTok)
  | .u32 p :: rest => some (p, rest)
  | _ => none

/-- `adl<unavailable_node>::to`:
`serialize(out, n.id, uint64_t(n.unavailable_since.value()))`. -/
def adl_to_unavailable_node (n : unavailable_node) : List AdlTok :=
  adl_to_node_id n.id ++ [.u64 (toUInt64p n.unavailable_since.value)]

/-- `adl<unavailable_node>::from`: reads the id, then a `uint64_t`, and
rebuilds the timestamp from it. -/
def adl_from_unavailable_node (toks : List AdlTok) :
    Option (unavailable_node × List AdlTok) :=
  (adl_from_node_id toks).bind fun r1 =>
    (adl_from_u64 r1.2).map fun r2 => (⟨r1.1, ⟨ofInt64p r2.1⟩⟩, r2.2)

/-- `adl<full_node>::to`: `serialize(out, n.id, n.disk_used_percent)`. -/
def adl_to_full_node (n : full_node) : List AdlTok :=
  adl_to_node_id n.id ++ [.u32 (n.disk_used_percent % 4294967296)]

/-- `adl<full_node>::from`: reads the id, then a `uint32_t`. -/
def adl_from_full_node (toks : List AdlTok) :
    Option (full_node × List AdlTok) :=
  (adl_from_node_id toks).bind fun r1 =>
    (adl_from_u32 r1.2).map fun r2 => (⟨r1.1, r2.1⟩, r2.2)

/-- The generic `adl<std::vector<T>>::to`: an `int32` element count
followed by the serialized elements. -/
def adl_to_list {α : Type} (f : α → List AdlTok) (l : List α) : List AdlTok :=
  .i32 (l.length % 4294967296) :: (l.map f).flatten

/-- Read `n` consecutive values with the element reader `f`. -/
def readN {α : Type} (f : List AdlTok → Option (α × List AdlTok)) :
    Nat → List AdlTok → Option (List α × List AdlTok)
  | 0, toks => some ([], toks)
  | Nat.succ k, toks =>
    (f toks).bind fun r1 =>
      (readN f k r1.2).map fun r2 => (r1.1 :: r2.1, r2.2)

/-- The generic `adl<std::vector<T>>::from`: reads the `int32` count,
then that many elements. -/
def adl_from_list {α : Type} (f : List AdlTok → Option (α × List AdlTok)) :
    List AdlTok → Option (List α × List AdlTok)
  | .i32 p :: rest =>
    if ofInt32p p < 0 then none else readN f (ofInt32p p).toNat rest
  | _ => none

/-- `adl<cluster::partition_balancer_violations>::to`:
`serialize(out, v.unavailable_nodes, v.full_nodes)`. -/
def adl_to_violations (v : partition_balancer_violations) : List AdlTok :=
  adl_to_list adl_to_unavailable_node v.unavailable_nodes
    ++ adl_to_list adl_to_full_node v.full_nodes

/-- `adl<cluster::partition_balancer_violations>::from`: reads the
unavailable-node vector, then the full-node vector. -/
def adl_from_violations (toks : List AdlTok) :
    Option (partition_balancer_violations × List AdlTok) :=
  (adl_from_list adl_from_unavailable_node toks).bind fun r1 =>
    (adl_from_list adl_from_full_node r1.2).map fun r2 =>
      (⟨r1.1, r2.1⟩, r2.2)

/-- The C++ field ranges: `int32_t` ids, an `int64_t` timestamp, a
`uint32_t` percentage, and vector sizes representable as `int32_t`. -/
def violations_in_range (v : partition_balancer_violations) : Prop :=
  (∀ n ∈ v.unavailable_nodes,
      -2147483648 ≤ n.id.value ∧ n.id.value < 2147483648
      ∧ -9223372036854775808 ≤ n.unavailable_since.value
      ∧ n.unavailable_since.value < 9223372036854775808)
  ∧ (∀ n ∈ v.full_nodes,
      -2147483648 ≤ n.id.value ∧ n.id.value < 2147483648
      ∧ n.disk_used_percent < 4294967296)
  ∧ v.unavailable_nodes.length < 2147483648
  ∧ v.full_nodes.length < 2147483648

instance violations_in_range_dec (v : partition_balancer_violations) :
    Decidable (violations_in_range v) := by
  unfold violations_in_range
  infer_instance

theorem ofInt32p_toUInt32p (v : Int)
    (h1 : -2147483648 ≤ v) (h2 : v < 2147483648) :
    ofInt32p (toUInt32p v) = v := by
  unfold ofInt32p toUInt32p
  have hmod : (0 : Int) ≤ v % 4294967296 :=
    Int.emod_nonneg v (by norm_num)
  have hcast : (((v % 4294967296).toNat : Nat) : Int) = v % 4294967296 :=
    Int.toNat_of_nonneg hmod
  split_ifs with hc
  · omega
  · omega

theorem ofInt64p_toUInt64p (v : Int)
    (h1 : -9223372036854775808 ≤ v) (h2 : v < 9223372036854775808) :
    ofInt64p (toUInt64p v) = v := by
  unfold ofInt64p toUInt64p
  have hmod : (0 : Int) ≤ v % 18446744073709551616 :=
    Int.emod_nonneg v (by norm_num)
  have hcast : (((v % 18446744073709551616).toNat : Nat) : Int)
      = v % 18446744073709551616 :=
    Int.toNat_of_nonneg hmod
  split_ifs with hc
  · omega
  · omega

theorem adl_node_id_roundtrip (n : node_id) (rest : List AdlTok)
    (h1 : -2147483648 ≤ n.value) (h2 : n.value < 2147483648) :
    adl_from_node_id (adl_to_node_id n ++ rest) = some (n, rest) := by
  obtain ⟨v⟩ := n
  simp [adl_to_node_id, adl_from_node_id, ofInt32p_toUInt32p v h1 h2]

theorem adl_unavailable_node_roundtrip (n : unavailable_node)
    (rest : List AdlTok)
    (h1 : -2147483648 ≤ n.id.value) (h2 : n.id.value < 2147483648)
    (h3 : -9223372036854775808 ≤ n.unavailable_since.value)
    (h4 : n.unavailable_since.value < 9223372036854775808) :
    adl_from_unavailable_node (adl_to_unavailable_node n ++ rest)
      = some (n, rest) := by
  obtain ⟨⟨vid⟩, ⟨vts⟩⟩ := n
  simp only [adl_to_unavailable_node, adl_from_unavailable_node,
    List.append_assoc]
  rw [adl_node_id_roundtrip _ _ h1 h2]
  simp [adl_from_u64, ofInt64p_toUInt64p vts h3 h4]

theorem adl_full_node_roundtrip (n : full_node) (rest : List AdlTok)
    (h1 : -2147483648 ≤ n.id.value) (h2 : n.id.value < 2147483648)
    (h3 : n.disk_used_percent < 4294967296) :
    adl_from_full_node (adl_to_full_node n ++ rest) = some (n, rest) := by
  obtain ⟨⟨vid⟩, d⟩ := n
  simp only [adl_to_full_node, adl_from_full_node, List.append_assoc]
  rw [adl_node_id_roundtrip _ _ h1 h2]
  simp [adl_from_u32, Nat.mod_eq_of_lt h3]

theorem readN_elements {α : Type}
    (f : α → List AdlTok) (g : List AdlTok → Option (α × List AdlTok))
    (P : α → Prop)
    (hfg : ∀ (a : α) (rest : List AdlTok), P a → g (f a ++ rest) = some (a, rest)) :
    ∀ (l : List α) (rest : List AdlTok), (∀ a ∈ l, P a) →
      readN g l.length ((l.map f).flatten ++ rest) = some (l, rest) := by
  intro l
  induction l with
  | nil => intro rest _; simp [readN]
  | cons a as ih =>
    intro rest hP
    simp only [List.map_cons, List.flatten_cons, List.length_cons,
      List.append_assoc, readN]
    rw [hfg a _ (hP a (by simp))]
    simp only [Option.some_bind]
    rw [ih rest (fun b hb => hP b (by simp [hb]))]
    rfl

theorem adl_list_roundtrip {α : Type}
    (f : α → List AdlTok) (g : List AdlTok → Option (α × List AdlTok))
    (P : α → Prop)
    (hfg : ∀ (a : α) (rest : List AdlTok), P a → g (f a ++ rest) = some (a, rest))
    (l : List α) (rest : List AdlTok)
    (hP : ∀ a ∈ l, P a) (hlen : l.length < 2147483648) :
    adl_from_list g (adl_to_list f l ++ rest) = some (l, rest) := by
  simp only [adl_to_list, List.cons_append, adl_from_list]
  have hmod : l.length % 4294967296 = l.length :=
    Nat.mod_eq_of_lt (by omega)
  rw [hmod]
  have hof : ofInt32p l.length = (l.length : Int) := by
    unfold ofInt32p
    rw [if_pos (by exact_mod_cast hlen)]
  rw [hof, if_neg (by omega), Int.toNat_natCast]
  exact readN_elements f g P hfg l rest hP

theorem listEqBy_refl {α : Type} (f : α → α → Bool)
    (hf : ∀ a, f a a = true) : ∀ l : List α, listEqBy f l l = true := by
  intro l
  induction l with
  | nil => rfl
  | cons a as ih => simp [listEqBy, hf a, ih]

theorem partition_balancer_violations_eq_refl
    (v : partition_balancer_violations) :
    partition_balancer_violations_eq v v = true := by
  unfold partition_balancer_violations_eq
  rw [listEqBy_refl unavailable_node_eq
      (fun a => by simp [unavailable_node_eq, node_id_eq, timestamp_eq]),
    listEqBy_refl full_node_eq
      (fun a => by simp [full_node_eq, node_id_eq])]
  rfl

/-- C9: for every `partition_balancer_violations` value within the C++
field ranges, deserializing its ADL serialization succeeds, consumes the
whole encoding, and yields a value equal to it under `operator==`
(`adl::from` is a left inverse of `adl::to`). -/
theorem partition_balancer_violations_adl_roundtrip
    (v : partition_balancer_violations) (hr : violations_in_range v) :
    ∃ w : partition_balancer_violations,
      adl_from_violations (adl_to_violations v) = some (w, [])
      ∧ partition_balancer_violations_eq w v = true := by
  obtain ⟨hun, hfn, hlu, hlf⟩ := hr
  refine ⟨v, ?_, partition_balancer_violations_eq_refl v⟩
  obtain ⟨un, fn⟩ := v
  simp only [adl_to_violations, adl_from_violations, List.append_assoc]
  rw [adl_list_roundtrip adl_to_unavailable_node adl_from_unavailable_node
    (fun n => -2147483648 ≤ n.id.value ∧ n.id.value < 2147483648
      ∧ -9223372036854775808 ≤ n.unavailable_since.value
      ∧ n.unavailable_since.value < 9223372036854775808)
    (fun a rest ha =>
      adl_unavailable_node_roundtrip a rest ha.1 ha.2.1 ha.2.2.1 ha.2.2.2)
    un _ hun hlu]
  simp only [Option.some_bind]
  have h2 : adl_from_list adl_from_full_node (adl_to_list adl_to_full_node fn)
      = some (fn, []) := by
    simpa using adl_list_roundtrip adl_to_full_node adl_from_full_node
      (fun n => -2147483648 ≤ n.id.value ∧ n.id.value < 2147483648
        ∧ n.disk_used_percent < 4294967296)
      (fun a rest ha => adl_full_node_roundtrip a rest ha.1 ha.2.1 ha.2.2)
      fn [] hfn hlf
  rw [h2]
  rfl

/-- Witness for C9 at a concrete value with a negative timestamp,
exercising the unsigned casts. -/
theorem partition_balancer_violations_adl_roundtrip_witness :
    violations_in_range ⟨[⟨⟨1⟩, ⟨-5⟩⟩], [⟨⟨2⟩, 99⟩]⟩
    ∧ ∃ w : partition_balancer_violations,
        adl_from_violations (adl_to_violations ⟨[⟨⟨1⟩, ⟨-5⟩⟩], [⟨⟨2⟩, 99⟩]⟩)
          = some (w, [])
        ∧ partition_balancer_violations_eq w ⟨[⟨⟨1⟩, ⟨-5⟩⟩], [⟨⟨2⟩, 99⟩]⟩ = true :=
  ⟨by decide,
   partition_balancer_violations_adl_roundtrip ⟨[⟨⟨1⟩, ⟨-5⟩⟩], [⟨⟨2⟩, 99⟩]⟩
     (by decide)⟩

/-- `cluster::node_disk_space`.  The constructor computes
`free_space_rate = free_space / total_space` in `double`; the rate is
modelled as a rational, which is irrelevant here since equality never
reads it. -/
structure node_disk_space where
  node_id : node_id
  free_space : Nat
  total_space : Nat
  free_space_rate : Rat
deriving DecidableEq

/-- The `node_disk_space` constructor. -/
def node_disk_space.make (id : Cluster.node_id) (free total : Nat) :
    node_disk_space :=
  ⟨id, free, total, (free : Rat) / (total : Rat)⟩

/-- `node_disk_space::operator==`: compares only `node_id`. -/
def node_disk_space_eq (a b : node_disk_space) : Bool :=
  node_id_eq a.node_id b.node_id

theorem node_id_eq_iff (a b : node_id) : node_id_eq a b = true ↔ a = b := by
  cases a; cases b; simp [node_id_eq]

/-- C10: two `node_disk_space` values compare equal exactly when their
`node_id` fields are equal; `free_space`, `total_space` and
`free_space_rate` have no effect on equality. -/
theorem node_disk_space_eq_node_id_only :
    (∀ a b : node_disk_space,
      node_disk_space_eq a b = true ↔ a.node_id = b.node_id)
    ∧ ∀ (id : node_id) (f1 t1 f2 t2 : Nat) (r1 r2 : Rat),
        node_disk_space_eq ⟨id, f1, t1, r1⟩ ⟨id, f2, t2, r2⟩ = true := by
  constructor
  · intro a b
    simp [node_disk_space_eq, node_id_eq_iff]
  · intro id f1 t1 f2 t2 r1 r2
    simp [node_disk_space_eq, node_id_eq]

end Cluster
